import Mathlib

/-!
# Verification of the localize-assets webpack plugin core

Shallow embedding of the plugin in `src` (placeholder codec, filename
template resolver, locale catalog validator, source scanner, asset
localizer, localization orchestrator) over `List Char` strings, together
with proofs and refutations of the specified properties.

JS strings are modelled as `List Char`; byte strings as `List Nat` with
values below 256.  The `./utils` helper module of the repository is not
present under `src/`, so its members (`sha256`-derived constants, `base64`,
`findSubstringLocations`, `deleteAsset`) are modelled from the spec where
so marked.
-/

namespace LocalizeAssets

/-! ## Generic string machinery -/

/-- `pat` occurs in `s` starting at index `i`. -/
def OccursAt (pat s : List Char) (i : Nat) : Prop := pat <+: s.drop i

instance (pat s : List Char) (i : Nat) : Decidable (OccursAt pat s i) := by
  unfold OccursAt; infer_instance

/-- `pat` occurs somewhere in `s`. -/
def OccursIn (pat s : List Char) : Prop := ∃ i, OccursAt pat s i

/-- Modelled from the spec: `findSubstringLocations` from the missing utils
module — a linear scan returning every index at which the substring occurs. -/
def findSubstringLocations (s pat : List Char) : List Nat :=
  (List.range s.length).filter (fun i => pat.isPrefixOf (s.drop i))

/-- JS `String.prototype.indexOf(c, start)`: index of the first occurrence of
the character `c` at or after `start`; `none` models the `-1` result. -/
def indexOfFrom (s : List Char) (c : Char) (start : Nat) : Option Nat :=
  ((s.drop start).findIdx? (fun x => x = c)).map (fun j => start + j)

/-! ## Hash-derived constants

The source derives two fixed tokens from sha256 digests
(`const placeholderPrefix = sha256('localize-assets-plugin-placeholder-prefix').slice(0, 8)`
and ``const fileNameTemplatePlaceholder = `[locale:${sha256('locale-placeholder').slice(0, 8)}]` ``).
The `sha256` helper lives in the utils module that is not under `src/`; the
digests of those two fixed salts are the constants below. -/

/-- Modelled from the spec: the 8-character placeholder prefix, the first 8 hex
digits of sha256("localize-assets-plugin-placeholder-prefix"). -/
def placeholderPrefixChars : List Char := "b0a92123".toList

/-- `const placeholderSuffix = '|'`. -/
def placeholderSuffixChar : Char := '|'

/-- Modelled from the spec: the filename template marker
"[locale:" ++ first 8 hex digits of sha256("locale-placeholder") ++ "]". -/
def fileNameTemplatePlaceholder : List Char := "[locale:b64b2e3f]".toList

/-! ## Base64 codec

Modelled from the spec: the `base64` helper of the missing utils module is a
reversible base transform over the UTF-8 bytes of the key
(`Buffer.from(str).toString('base64')` / its inverse), acting as the escaping
layer of the placeholder codec. -/

def b64Alpha : List Char :=
  "ABCDEFGHIJKLMNOPQRSTUVWXYZabcdefghijklmnopqrstuvwxyz0123456789+/".toList

def valToChar (n : Nat) : Char := b64Alpha.getD n '='

def charToVal (c : Char) : Option Nat := b64Alpha.indexOf? c

/-- Group bytes in threes into 6-bit values (the final group may carry one or
two bytes, producing two or three sextets). -/
def bytesToSextets : List Nat → List Nat
  | a :: b :: c :: rest =>
    a / 4 :: (a % 4 * 16 + b / 16) :: (b % 16 * 4 + c / 64) :: c % 64 :: bytesToSextets rest
  | [a, b] => [a / 4, a % 4 * 16 + b / 16, b % 16 * 4]
  | [a] => [a / 4, a % 4 * 16]
  | [] => []

/-- Inverse regrouping of 6-bit values into bytes. -/
def sextetsToBytes : List Nat → List Nat
  | s1 :: s2 :: s3 :: s4 :: rest =>
    (s1 * 4 + s2 / 16) :: (s2 % 16 * 16 + s3 / 4) :: (s3 % 4 * 64 + s4) :: sextetsToBytes rest
  | [s1, s2, s3] => [s1 * 4 + s2 / 16, s2 % 16 * 16 + s3 / 4]
  | [s1, s2] => [s1 * 4 + s2 / 16]
  | _ => []

/-- Number of `'='` padding characters for a byte count. -/
def padLen (n : Nat) : Nat := (3 - n % 3) % 3

def b64encode (bytes : List Nat) : List Char :=
  (bytesToSextets bytes).map valToChar ++ List.replicate (padLen bytes.length) '='

/-- Look up every character in the base64 alphabet, failing on any foreign one. -/
def charVals : List Char → Option (List Nat)
  | [] => some []
  | c :: rest =>
    match charToVal c, charVals rest with
    | some v, some vs => some (v :: vs)
    | _, _ => none

/-- Strict base64 decoding: rejects (returns `none` for) any candidate that is
not shaped like an encoder output, per the spec's requirement that decoding
rejects spans that do not round-trip instead of throwing. -/
def b64decode (s : List Char) : Option (List Nat) :=
  let body := s.takeWhile (fun c => c ≠ '=')
  let pad := s.drop body.length
  if pad.all (fun c => c = '=') ∧ pad.length ≤ 2 ∧ (body.length + pad.length) % 4 = 0 then
    (charVals body).map sextetsToBytes
  else
    none

/-! ## UTF-8 layer -/

def utf8EncodeChar (c : Char) : List Nat :=
  let n := c.toNat
  if n < 0x80 then [n]
  else if n < 0x800 then [0xC0 + n / 64, 0x80 + n % 64]
  else if n < 0x10000 then [0xE0 + n / 4096, 0x80 + n / 64 % 64, 0x80 + n % 64]
  else [0xF0 + n / 0x40000, 0x80 + n / 4096 % 64, 0x80 + n / 64 % 64, 0x80 + n % 64]

def utf8Bytes (s : List Char) : List Nat := (s.map utf8EncodeChar).flatten

/-- UTF-8 decoding, rejecting stray continuation bytes and malformed leads. -/
def utf8Decode : List Nat → Option (List Char)
  | [] => some []
  | b :: rest =>
    if b < 0x80 then (utf8Decode rest).map (fun cs => Char.ofNat b :: cs)
    else if b < 0xC2 then none
    else if b < 0xF5 then
      match rest with
      | b2 :: rest2 =>
        if 0x80 ≤ b2 ∧ b2 < 0xC0 then
          if b < 0xE0 then
            (utf8Decode rest2).map (fun cs => Char.ofNat ((b - 0xC0) * 64 + (b2 - 0x80)) :: cs)
          else
            match rest2 with
            | b3 :: rest3 =>
              if 0x80 ≤ b3 ∧ b3 < 0xC0 then
                if b < 0xF0 then
                  (utf8Decode rest3).map
                    (fun cs => Char.ofNat ((b - 0xE0) * 4096 + (b2 - 0x80) * 64 + (b3 - 0x80)) :: cs)
                else
                  match rest3 with
                  | b4 :: rest4 =>
                    if 0x80 ≤ b4 ∧ b4 < 0xC0 then
                      (utf8Decode rest4).map
                        (fun cs => Char.ofNat ((b - 0xF0) * 0x40000 + (b2 - 0x80) * 4096
                          + (b3 - 0x80) * 64 + (b4 - 0x80)) :: cs)
                    else none
                  | [] => none
              else none
            | [] => none
        else none
      | [] => none
    else none

/-- `base64.encode` on a JS string: base64 over its UTF-8 bytes. -/
def base64Encode (s : List Char) : List Char := b64encode (utf8Bytes s)

/-- `base64.decode` on a JS string, strict (spec-modelled). -/
def base64Decode (t : List Char) : Option (List Char) := (b64decode t).bind utf8Decode

/-! ## Placeholder codec (insertLocalePlaceholders line 188 / claim C1 decode) -/

/-- The token emitted for a string key in a multi-locale build:
`placeholderPrefix + base64.encode(stringKey) + placeholderSuffix`. -/
def encodePlaceholder (key : List Char) : List Char :=
  placeholderPrefixChars ++ base64Encode key ++ [placeholderSuffixChar]

/-- Decoding a token: strip the prefix and the suffix delimiter, then
base64-decode the remaining span (as `locatePlaceholders` does with the
span between the prefix end and the suffix). -/
def decodePlaceholder (token : List Char) : Option (List Char) :=
  base64Decode ((token.drop placeholderPrefixChars.length).dropLast)

/-! ## Catalogs and options

Catalogs are association lists preserving JS object key order. -/

abbrev Catalog := List (List Char × List Char)

def catLookup (cat : Catalog) (key : List Char) : Option (List Char) :=
  (cat.find? (fun kv => kv.fst = key)).map (fun kv => kv.snd)

/-- `hasOwnProp(cat, key)`: key present, regardless of the value. -/
def catHas (cat : Catalog) (key : List Char) : Bool :=
  (cat.find? (fun kv => kv.fst = key)).isSome

abbrev Locales := List (List Char × Catalog)

/-- `Object.keys(options.locales)`. -/
def localeNamesOf (locales : Locales) : List (List Char) := locales.map (fun lc => lc.fst)

/-- `options.locales[name]` (empty catalog for an absent name; the plugin only
indexes declared locale names). -/
def localeData (locales : Locales) (name : List Char) : Catalog :=
  ((locales.find? (fun lc => lc.fst = name)).map (fun lc => lc.snd)).getD []

structure Options where
  locales : Locales
  throwOnMissing : Bool := false
  warnOnUnusedString : Bool := false
  sourceMapsForLocales : Option (List (List Char)) := none

/-- `this.singleLocale`: set iff exactly one locale is configured. -/
def singleLocaleOf (names : List (List Char)) : Option (List Char) :=
  match names with
  | [l] => some l
  | _ => none

/-! ## JS helpers: truthiness fallback and JSON.stringify -/

/-- JS `v || key` where `v` is `localeData[stringKey]`: `undefined` (absent key)
and `""` (empty string) are falsy, so both fall back to the bare key. -/
def jsOrKey (v : Option (List Char)) (key : List Char) : List Char :=
  match v with
  | some s => if s = [] then key else s
  | none => key

def hexDigitChar (n : Nat) : Char := "0123456789abcdef".toList.getD n '0'

/-- Escaping of one character inside a JSON string literal (JSON.stringify). -/
def jsonEscapeChar (c : Char) : List Char :=
  if c = '"' then ['\\', '"']
  else if c = '\\' then ['\\', '\\']
  else if c = '\n' then ['\\', 'n']
  else if c = '\r' then ['\\', 'r']
  else if c = '\t' then ['\\', 't']
  else if c.toNat < 32 then
    ['\\', 'u', '0', '0', hexDigitChar (c.toNat / 16), hexDigitChar (c.toNat % 16)]
  else [c]

def jsonEscape (s : List Char) : List Char := (s.map jsonEscapeChar).flatten

structure PluginState where
  validatedLocales : List (List Char)
  warnings : List (List Char)
  tracked : List (List Char)
deriving DecidableEq

def joinComma : List (List Char) → List Char
  | [] => []
  | [x] => x
  | x :: rest => x ++ (", ".toList ++ joinComma rest)

/-- The missing-key diagnostic text built at line 150. -/
def mkMissingError (key : List Char) (missing : List (List Char)) : List Char :=
  "[LocalizeAssetsPlugin] Missing localization for key \"".toList ++ key
    ++ "\" in locales: ".toList ++ joinComma missing

/-- The locales whose catalog lacks `key` (`hasOwnProp` check, line 142). -/
def missingFromLocales (locales : Locales) (key : List Char) : List (List Char) :=
  (localeNamesOf locales).filter (fun l => !(catHas (localeData locales l) key))

/-- `validateLocale`: memoized per key; on a miss records the key, then either
throws (`.error`) when `throwOnMissing` is set or pushes a warning. -/
def validateLocale (opts : Options) (st : PluginState) (key : List Char) :
    Except (List Char) PluginState :=
  if key ∈ st.validatedLocales then .ok st
  else
    let missing := missingFromLocales opts.locales key
    let st' := { st with validatedLocales := key :: st.validatedLocales }
    if missing.isEmpty then .ok st'
    else
      let e := mkMissingError key missing
      if opts.throwOnMissing then .error e
      else .ok { st' with warnings := st'.warnings ++ [e] }

/-! ## Source scanner (locatePlaceholders, lines 219-247) -/

structure PlaceholderLocation where
  stringKey : List Char
  index : Nat
  endIndex : Nat
deriving DecidableEq

/-- For every occurrence of the placeholder prefix: search forward for the
suffix delimiter (discard the match if none), decode the captured span
(discard the match if decoding fails or yields an empty — JS-falsy — key). -/
def locatePlaceholders (sourceString : List Char) : List PlaceholderLocation :=
  (findSubstringLocations sourceString placeholderPrefixChars).filterMap
    (fun placeholderIndex =>
      let placeholderStartIndex := placeholderIndex + placeholderPrefixChars.length
      match indexOfFrom sourceString placeholderSuffixChar placeholderStartIndex with
      | none => none
      | some placeholderSuffixIndex =>
        let placeholder := (sourceString.take placeholderSuffixIndex).drop placeholderStartIndex
        match base64Decode placeholder with
        | some stringKey =>
          if stringKey = [] then none
          else some ⟨stringKey, placeholderIndex, placeholderSuffixIndex + 1⟩
        | none => none)

/-! ## Asset localizer (localizeAsset, lines 341-391)

MagicString applies every `overwrite(start, end, content)` against the
*original* coordinates of the source; the net effect on the text is the
application of the (disjoint) span edits in ascending start order. -/

structure Edit where
  start : Nat
  stop : Nat
  replacement : List Char
deriving DecidableEq

def insertEdit (e : Edit) : List Edit → List Edit
  | [] => [e]
  | f :: rest => if e.start ≤ f.start then e :: f :: rest else f :: insertEdit e rest

def sortEdits : List Edit → List Edit
  | [] => []
  | e :: rest => insertEdit e (sortEdits rest)

def applyEditsFrom (s : List Char) (pos : Nat) : List Edit → List Char
  | [] => s.drop pos
  | e :: rest => ((s.take e.start).drop pos ++ e.replacement) ++ applyEditsFrom s e.stop rest

/-- The two overwrite loops of `localizeAsset`: each placeholder span is
replaced by `JSON.stringify(localeData[stringKey] || stringKey).slice(1, -1)`
(the JSON-escaped body), each filename-placeholder span by the locale name. -/
def localizeEdits (cat : Catalog) (locale : List Char)
    (placeholderLocations : List PlaceholderLocation)
    (fileNamePlaceholderLocations : List Nat) : List Edit :=
  placeholderLocations.map
    (fun loc => ⟨loc.index, loc.endIndex, jsonEscape (jsOrKey (catLookup cat loc.stringKey) loc.stringKey)⟩)
  ++ fileNamePlaceholderLocations.map
    (fun i => ⟨i, i + fileNameTemplatePlaceholder.length, locale⟩)

/-- A source-map, modelled as the data the regenerated map is a function of
(`magicStringInstance.generateMap({ source: assetName, includeContent: true })`). -/
structure GeneratedMap where
  source : List Char
  edits : List Edit
deriving DecidableEq

/-- Result of `localizeAsset`: a `SourceMapSource` (localized code, asset name,
regenerated map, original source, original map) when a map was supplied,
otherwise a `RawSource` carrying text only. -/
inductive LocalizedSource where
  | sourceMapSource (code : List Char) (name : List Char) (newMap : GeneratedMap)
      (originalSource : List Char) (originalMap : List Char)
  | rawSource (code : List Char)
deriving DecidableEq

def LocalizedSource.code : LocalizedSource → List Char
  | .sourceMapSource c _ _ _ _ => c
  | .rawSource c => c

def localizeAsset (locales : Locales) (locale : List Char) (assetName : List Char)
    (placeholderLocations : List PlaceholderLocation)
    (fileNamePlaceholderLocations : List Nat)
    (source : List Char) (map : Option (List Char)) : LocalizedSource :=
  let edits := sortEdits (localizeEdits (localeData locales locale) locale
    placeholderLocations fileNamePlaceholderLocations)
  let localizedCode := applyEditsFrom source 0 edits
  match map with
  | some m => .sourceMapSource localizedCode assetName ⟨assetName, edits⟩ source m
  | none => .rawSource localizedCode

/-- The map passed for a locale (generateLocalizedAssets lines 280-284):
the asset's map iff no subset is configured or the locale is in it. -/
def mapForLocale (sourceMapsForLocales : Option (List (List Char))) (locale : List Char)
    (map : Option (List Char)) : Option (List Char) :=
  match sourceMapsForLocales with
  | none => map
  | some smfl => if locale ∈ smfl then map else none

/-! ## Filename template resolver (interpolateLocaleToFileName, lines 106-127)

`path.replace(/\[locale]/g, replaceWith)`: a single left-to-right pass over the
original string; replaced spans are not rescanned.  A string replacement in JS
`String.prototype.replace` is not inserted literally: the patterns `$$`, `$&`,
the dollar-backquote pattern and the dollar-quote pattern expand to a dollar
sign, the matched substring, the text before the match and the text after the
match respectively (`$` followed by anything else is literal, and this regex
has no capture groups, so `$1`-style patterns stay literal). -/

/-- The dollar-backquote substitution trigger of JS string replacements. -/
def backquoteChar : Char := Char.ofNat 96

/-- The dollar-quote substitution trigger of JS string replacements. -/
def quoteChar : Char := Char.ofNat 39

/-- JS GetSubstitution for a string replacement with no capture groups:
expand `$$`, `$&`, dollar-backquote and dollar-quote inside `rep`, where
`matched` is the matched substring, `before` the portion of the original
string preceding the match and `after` the portion following it. -/
def expandDollar (matched before after : List Char) : List Char → List Char
  | [] => []
  | [c] => [c]
  | c :: c2 :: rest =>
    if c = '$' then
      if c2 = '$' then '$' :: expandDollar matched before after rest
      else if c2 = '&' then matched ++ expandDollar matched before after rest
      else if c2 = backquoteChar then before ++ expandDollar matched before after rest
      else if c2 = quoteChar then after ++ expandDollar matched before after rest
      else c :: expandDollar matched before after (c2 :: rest)
    else c :: expandDollar matched before after (c2 :: rest)

/-- A replacement string free of the four JS `$`-substitution patterns
(such strings are inserted literally by `String.prototype.replace`). -/
def dollarSafe : List Char → Bool
  | [] => true
  | [_] => true
  | c :: c2 :: rest =>
    !(c == '$' && (c2 == '$' || c2 == '&' || c2 == backquoteChar || c2 == quoteChar))
      && dollarSafe (c2 :: rest)

/-- Fuel-driven worker for `replaceAll` over the remaining suffix `s` of the
original string `orig` (so the current match position is
`orig.length - s.length`); the fuel bounds the remaining input length, so the
out-of-fuel branch is unreachable from `replaceAll`. -/
def replaceAllF (orig pat rep : List Char) : Nat → List Char → List Char
  | _, [] => []
  | 0, s => s
  | fuel + 1, c :: rest =>
    if pat ≠ [] ∧ pat.isPrefixOf (c :: rest) then
      expandDollar pat (orig.take (orig.length - (c :: rest).length))
          (orig.drop (orig.length - (c :: rest).length + pat.length)) rep
        ++ replaceAllF orig pat rep fuel ((c :: rest).drop pat.length)
    else c :: replaceAllF orig pat rep fuel rest

def replaceAll (pat rep s : List Char) : List Char :=
  replaceAllF s pat rep s.length s

/-- The same pass with the replacement inserted literally; agrees with
`replaceAllF` exactly when the replacement is `dollarSafe`. -/
def replaceLitF (pat rep : List Char) : Nat → List Char → List Char
  | _, [] => []
  | 0, s => s
  | fuel + 1, c :: rest =>
    if pat ≠ [] ∧ pat.isPrefixOf (c :: rest) then
      rep ++ replaceLitF pat rep fuel ((c :: rest).drop pat.length)
    else c :: replaceLitF pat rep fuel rest

def localeTemplate : List Char := "[locale]".toList

/-- `replaceWith = this.singleLocale ?? fileNameTemplatePlaceholder` (line 107). -/
def replaceWithFor (names : List (List Char)) : List Char :=
  match singleLocaleOf names with
  | some l => l
  | none => fileNameTemplatePlaceholder

/-- The `interpolate` callback tapped on the assetPath hook (lines 108-113). -/
def interpolate (replaceWith : List Char) (path : List Char) : List Char :=
  replaceAll localeTemplate replaceWith path

/-! ## Localization orchestrator (generateLocalizedAssets, lines 249-339) -/

inductive AssetEvent where
  | emit (name : List Char)
  | delete (name : List Char)
deriving DecidableEq

def isJsFile (name : List Char) : Bool := (".js".toList).isSuffixOf name

def isSourceMap (name : List Char) : Bool := (".js.map".toList).isSuffixOf name

/-- `asset.name.replace(fileNameTemplatePlaceholderPattern, locale)` (line 271). -/
def newAssetName (assetName locale : List Char) : List Char :=
  replaceAll fileNameTemplatePlaceholder locale assetName

/-- Per-asset processing, as the sequence of emit/delete operations performed
on the compilation.  A `.js` asset is localized once per configured locale;
any other asset is copied under the locale-expanded name for every locale
(restricted to `sourceMapsForLocales` for a `.js.map` asset when that subset is
configured).  Modelled from the spec: `deleteAsset` (missing utils module)
deletes the original only if at least one replacement was produced. -/
def processAsset (opts : Options) (assetName : List Char) : List AssetEvent :=
  let names :=
    if isJsFile assetName then
      (localeNamesOf opts.locales).map (newAssetName assetName)
    else
      let localesToIterate :=
        match opts.sourceMapsForLocales with
        | some smfl => if isSourceMap assetName then smfl else localeNamesOf opts.locales
        | none => localeNamesOf opts.locales
      localesToIterate.map (newAssetName assetName)
  names.map AssetEvent.emit ++ (if names.isEmpty then [] else [AssetEvent.delete assetName])

def setAdd (s : List (List Char)) (x : List Char) : List (List Char) :=
  if x ∈ s then s else s ++ [x]

/-- `trackStringKeys`, filled in the constructor with every key of every
locale's catalog (a JS `Set`: insertion order, no duplicates). -/
def initialTracked (locales : Locales) : List (List Char) :=
  locales.foldl (fun s lc => lc.snd.foldl (fun s kv => setAdd s kv.fst) s) []

def mkUnusedWarning (key : List Char) : List Char :=
  "[LocalizeAssetsPlugin] Unused string key \"".toList ++ key ++ "\"".toList

/-- The unused-key warnings the CODE pushes.  The push loop (lines 96-101) runs
directly in the body of the `compiler.hooks.make` tap; webpack fires `make`
when the module-build phase *starts*, before any module is parsed, so no
parser callback has yet removed a referenced key from `trackStringKeys` and
the loop reads the freshly initialized set, whatever is later referenced. -/
def unusedWarningsCode (opts : Options) (_referencedKeys : List (List Char)) : List (List Char) :=
  if opts.warnOnUnusedString ∧ initialTracked opts.locales ≠ [] then
    (initialTracked opts.locales).map mkUnusedWarning
  else []

/-- Modelled from the spec: the intended unused-key report — at the end of the
build, warn once for each catalog key that no compiled translation call
referenced (every referenced key having been removed from the tracked set). -/
def unusedWarningsSpec (opts : Options) (referencedKeys : List (List Char)) : List (List Char) :=
  if opts.warnOnUnusedString then
    (referencedKeys.foldl (fun s k => s.erase k) (initialTracked opts.locales)).map mkUnusedWarning
  else []

/-! # Proofs

## Base64 round-trip -/

theorem bytesToSextets_lt (l : List Nat) (h : ∀ b ∈ l, b < 256) :
    ∀ v ∈ bytesToSextets l, v < 64 := by
  induction l using bytesToSextets.induct with
  | case1 a b c rest ih =>
    have ha : a < 256 := h a (by simp)
    have hb : b < 256 := h b (by simp)
    have hc : c < 256 := h c (by simp)
    intro v hv
    simp only [bytesToSextets, List.mem_cons] at hv
    rcases hv with rfl | rfl | rfl | rfl | hv
    · omega
    · omega
    · omega
    · omega
    · exact ih (fun x hx => h x (by simp [hx])) v hv
  | case2 a b =>
    have ha : a < 256 := h a (by simp)
    have hb : b < 256 := h b (by simp)
    intro v hv
    simp only [bytesToSextets, List.mem_cons] at hv
    rcases hv with rfl | rfl | rfl | hv
    · omega
    · omega
    · omega
    · simp at hv
  | case3 a =>
    have ha : a < 256 := h a (by simp)
    intro v hv
    simp only [bytesToSextets, List.mem_cons] at hv
    rcases hv with rfl | rfl | hv
    · omega
    · omega
    · simp at hv
  | case4 => intro v hv; simp [bytesToSextets] at hv

theorem sextetsToBytes_bytesToSextets (l : List Nat) (h : ∀ b ∈ l, b < 256) :
    sextetsToBytes (bytesToSextets l) = l := by
  induction l using bytesToSextets.induct with
  | case1 a b c rest ih =>
    have ha : a < 256 := h a (by simp)
    have hb : b < 256 := h b (by simp)
    have hc : c < 256 := h c (by simp)
    simp only [bytesToSextets, sextetsToBytes, List.cons.injEq]
    exact ⟨by omega, by omega, by omega, ih (fun x hx => h x (by simp [hx]))⟩
  | case2 a b =>
    have ha : a < 256 := h a (by simp)
    have hb : b < 256 := h b (by simp)
    simp only [bytesToSextets, sextetsToBytes, List.cons.injEq]
    exact ⟨by omega, by omega, trivial⟩
  | case3 a =>
    have ha : a < 256 := h a (by simp)
    simp only [bytesToSextets, sextetsToBytes, List.cons.injEq]
    exact ⟨by omega, trivial⟩
  | case4 => rfl

theorem charToVal_valToChar : ∀ v : Nat, v < 64 → charToVal (valToChar v) = some v := by decide

theorem valToChar_ne_pad : ∀ v : Nat, v < 64 → valToChar v ≠ '=' := by decide

theorem charVals_map (l : List Nat) (h : ∀ v ∈ l, v < 64) :
    charVals (l.map valToChar) = some l := by
  induction l with
  | nil => rfl
  | cons v l ih =>
    have hv : v < 64 := h v (by simp)
    simp [charVals, charToVal_valToChar v hv, ih (fun x hx => h x (by simp [hx]))]

theorem takeWhile_all_append (p : Char → Bool) (l₁ l₂ : List Char) (h : ∀ c ∈ l₁, p c) :
    (l₁ ++ l₂).takeWhile p = l₁ ++ l₂.takeWhile p := by
  induction l₁ with
  | nil => simp
  | cons c l ih =>
    have hc : p c := h c (by simp)
    simp [List.takeWhile_cons, hc, ih (fun x hx => h x (by simp [hx]))]

theorem takeWhile_replicate_pad (n : Nat) :
    (List.replicate n '=').takeWhile (fun c => c ≠ '=') = [] := by
  cases n with
  | zero => rfl
  | succ m => simp [List.replicate_succ, List.takeWhile_cons]

theorem bytesToSextets_length_pad (l : List Nat) :
    ((bytesToSextets l).length + padLen l.length) % 4 = 0 := by
  induction l using bytesToSextets.induct with
  | case1 a b c rest ih =>
    simp only [bytesToSextets, List.length_cons, padLen] at *
    omega
  | case2 a b => simp [bytesToSextets, padLen]
  | case3 a => simp [bytesToSextets, padLen]
  | case4 => simp [bytesToSextets, padLen]

theorem padLen_le_two (n : Nat) : padLen n ≤ 2 := by
  simp only [padLen]; omega

theorem b64decode_b64encode (bytes : List Nat) (h : ∀ b ∈ bytes, b < 256) :
    b64decode (b64encode bytes) = some bytes := by
  have hs := bytesToSextets_lt bytes h
  have hbody : ((bytesToSextets bytes).map valToChar
        ++ List.replicate (padLen bytes.length) '=').takeWhile (fun c => c ≠ '=')
      = (bytesToSextets bytes).map valToChar := by
    rw [takeWhile_all_append]
    · rw [takeWhile_replicate_pad, List.append_nil]
    · intro c hc
      simp only [List.mem_map] at hc
      obtain ⟨v, hv, rfl⟩ := hc
      simpa using valToChar_ne_pad v (hs v hv)
  have hdrop : ((bytesToSextets bytes).map valToChar
        ++ List.replicate (padLen bytes.length) '=').drop
        ((bytesToSextets bytes).map valToChar).length
      = List.replicate (padLen bytes.length) '=' := List.drop_left _ _
  simp only [b64decode, b64encode, hbody, hdrop]
  rw [if_pos, charVals_map _ hs, Option.map_some']
  · rw [sextetsToBytes_bytesToSextets bytes h]
  · refine ⟨?_, ?_, ?_⟩
    · rw [List.all_eq_true]
      intro c hc
      simp [List.eq_of_mem_replicate hc]
    · simpa using padLen_le_two bytes.length
    · simpa using bytesToSextets_length_pad bytes

/-! ## UTF-8 round-trip -/

theorem char_toNat_lt (c : Char) : c.toNat < 0x110000 := by
  have h := c.valid
  simp only [UInt32.isValidChar, Nat.isValidChar] at h
  show c.val.toNat < 0x110000
  omega

theorem utf8EncodeChar_lt (c : Char) : ∀ b ∈ utf8EncodeChar c, b < 256 := by
  have hc := char_toNat_lt c
  intro b hb
  simp only [utf8EncodeChar] at hb
  split at hb <;> [skip; split at hb] <;> [skip; skip; split at hb] <;>
    simp only [List.mem_cons, List.not_mem_nil, or_false] at hb <;> omega

theorem utf8Bytes_lt (s : List Char) : ∀ b ∈ utf8Bytes s, b < 256 := by
  intro b hb
  simp only [utf8Bytes, List.mem_flatten, List.mem_map] at hb
  obtain ⟨bl, ⟨c, _, rfl⟩, hbl⟩ := hb
  exact utf8EncodeChar_lt c b hbl

theorem utf8Decode_one (b : Nat) (rest : List Nat) (h : b < 0x80) :
    utf8Decode (b :: rest) = (utf8Decode rest).map (fun cs => Char.ofNat b :: cs) := by
  rw [utf8Decode.eq_def]
  dsimp only
  rw [if_pos h]

theorem utf8Decode_two (b b2 : Nat) (rest : List Nat)
    (h1 : ¬ b < 0x80) (h2 : ¬ b < 0xC2) (h3 : b < 0xE0) (h4 : 0x80 ≤ b2 ∧ b2 < 0xC0) :
    utf8Decode (b :: b2 :: rest) =
      (utf8Decode rest).map (fun cs => Char.ofNat ((b - 0xC0) * 64 + (b2 - 0x80)) :: cs) := by
  rw [utf8Decode.eq_def]
  dsimp only
  rw [if_neg h1, if_neg h2, if_pos (show b < 0xF5 by omega), if_pos h4, if_pos h3]

theorem utf8Decode_three (b b2 b3 : Nat) (rest : List Nat)
    (h1 : ¬ b < 0x80) (h2 : ¬ b < 0xC2) (h3 : ¬ b < 0xE0) (h4 : b < 0xF0)
    (h5 : 0x80 ≤ b2 ∧ b2 < 0xC0) (h6 : 0x80 ≤ b3 ∧ b3 < 0xC0) :
    utf8Decode (b :: b2 :: b3 :: rest) =
      (utf8Decode rest).map
        (fun cs => Char.ofNat ((b - 0xE0) * 4096 + (b2 - 0x80) * 64 + (b3 - 0x80)) :: cs) := by
  rw [utf8Decode.eq_def]
  dsimp only
  rw [if_neg h1, if_neg h2, if_pos (show b < 0xF5 by omega), if_pos h5, if_neg h3,
    if_pos h6, if_pos h4]

theorem utf8Decode_four (b b2 b3 b4 : Nat) (rest : List Nat)
    (h1 : ¬ b < 0x80) (h2 : ¬ b < 0xC2) (h3 : ¬ b < 0xE0) (h4 : ¬ b < 0xF0) (h5 : b < 0xF5)
    (h6 : 0x80 ≤ b2 ∧ b2 < 0xC0) (h7 : 0x80 ≤ b3 ∧ b3 < 0xC0) (h8 : 0x80 ≤ b4 ∧ b4 < 0xC0) :
    utf8Decode (b :: b2 :: b3 :: b4 :: rest) =
      (utf8Decode rest).map
        (fun cs =>
          Char.ofNat
            ((b - 0xF0) * 0x40000 + (b2 - 0x80) * 4096 + (b3 - 0x80) * 64 + (b4 - 0x80)) :: cs) := by
  rw [utf8Decode.eq_def]
  dsimp only
  rw [if_neg h1, if_neg h2, if_pos h5, if_pos h6, if_neg h3, if_pos h7, if_neg h4, if_pos h8]

theorem utf8Decode_utf8Bytes (s : List Char) : utf8Decode (utf8Bytes s) = some s := by
  induction s with
  | nil => rfl
  | cons c s ih =>
    have hc := char_toNat_lt c
    have hbytes : utf8Bytes (c :: s) = utf8EncodeChar c ++ utf8Bytes s := by
      simp [utf8Bytes]
    rw [hbytes, utf8EncodeChar]
    by_cases h1 : c.toNat < 0x80
    · rw [if_pos h1]
      simp only [List.cons_append, List.nil_append]
      rw [utf8Decode_one _ _ h1, ih, Option.map_some', Char.ofNat_toNat]
    · rw [if_neg h1]
      by_cases h2 : c.toNat < 0x800
      · rw [if_pos h2]
        simp only [List.cons_append, List.nil_append]
        rw [utf8Decode_two _ _ _ (by omega) (by omega) (by omega) (by omega)]
        have hval : (0xC0 + c.toNat / 64 - 0xC0) * 64 + (0x80 + c.toNat % 64 - 0x80)
            = c.toNat := by omega
        rw [hval, ih, Option.map_some', Char.ofNat_toNat]
      · rw [if_neg h2]
        by_cases h3 : c.toNat < 0x10000
        · rw [if_pos h3]
          simp only [List.cons_append, List.nil_append]
          rw [utf8Decode_three _ _ _ _ (by omega) (by omega) (by omega) (by omega)
            (by constructor <;> omega) (by constructor <;> omega)]
          have hval : (0xE0 + c.toNat / 4096 - 0xE0) * 4096
              + (0x80 + c.toNat / 64 % 64 - 0x80) * 64 + (0x80 + c.toNat % 64 - 0x80)
              = c.toNat := by omega
          rw [hval, ih, Option.map_some', Char.ofNat_toNat]
        · rw [if_neg h3]
          simp only [List.cons_append, List.nil_append]
          rw [utf8Decode_four _ _ _ _ _ (by omega) (by omega) (by omega) (by omega)
            (by omega) (by constructor <;> omega) (by constructor <;> omega)
            (by constructor <;> omega)]
          have hval : (0xF0 + c.toNat / 0x40000 - 0xF0) * 0x40000
              + (0x80 + c.toNat / 4096 % 64 - 0x80) * 4096
              + (0x80 + c.toNat / 64 % 64 - 0x80) * 64 + (0x80 + c.toNat % 64 - 0x80)
              = c.toNat := by omega
          rw [hval, ih, Option.map_some', Char.ofNat_toNat]

theorem base64_roundtrip (s : List Char) : base64Decode (base64Encode s) = some s := by
  rw [base64Decode, base64Encode, b64decode_b64encode (utf8Bytes s) (utf8Bytes_lt s),
    Option.some_bind, utf8Decode_utf8Bytes]

/-! ## Claim C1 -/

/-- C1: for every string key, decoding the token produced by encoding that key
(prefix + base64-encode(key) + suffix, stripped of prefix and suffix) yields
the original key: `decode(encode(key)) = key`. -/
theorem c1_decode_encode_roundtrip (key : List Char) :
    decodePlaceholder (encodePlaceholder key) = some key := by
  rw [decodePlaceholder, encodePlaceholder, List.append_assoc, List.drop_left,
    List.dropLast_concat]
  exact base64_roundtrip key

/-! ## Claim C3: the missing-key diagnostic -/

theorem occursIn_append_left (p a b : List Char) (h : OccursIn p b) : OccursIn p (a ++ b) := by
  obtain ⟨i, hi⟩ := h
  refine ⟨a.length + i, ?_⟩
  rw [OccursAt, List.drop_append_eq_append_drop, List.drop_eq_nil_of_le (by omega),
    List.nil_append, Nat.add_sub_cancel_left]
  exact hi

theorem occursIn_self_append (p b : List Char) : OccursIn p (p ++ b) :=
  ⟨0, by rw [OccursAt, List.drop_zero]; exact List.prefix_append p b⟩

theorem mem_joinComma (l : List Char) (ls : List (List Char)) (h : l ∈ ls) :
    OccursIn l (joinComma ls) := by
  induction ls with
  | nil => simp at h
  | cons x rest ih =>
    rcases List.mem_cons.mp h with rfl | hmem
    · cases rest with
      | nil => exact ⟨0, List.prefix_refl l⟩
      | cons y rest' =>
        have hj : joinComma (l :: y :: rest') = l ++ (", ".toList ++ joinComma (y :: rest')) :=
          rfl
        rw [hj]
        exact occursIn_self_append _ _
    · cases rest with
      | nil => simp at hmem
      | cons y rest' =>
        have hj : joinComma (x :: y :: rest') = x ++ (", ".toList ++ joinComma (y :: rest')) :=
          rfl
        rw [hj]
        exact occursIn_append_left _ _ _ (occursIn_append_left _ _ _ (ih hmem))

theorem missing_fallback (locales : Locales) (key l : List Char)
    (h : l ∈ missingFromLocales locales key) :
    jsOrKey (catLookup (localeData locales l) key) key = key := by
  rw [missingFromLocales] at h
  have h2 := (List.mem_filter.mp h).2
  simp only [Bool.not_eq_eq_eq_not, Bool.not_true] at h2
  have hn : (localeData locales l).find? (fun kv => kv.fst = key) = none := by
    rcases hfind : (localeData locales l).find? (fun kv => kv.fst = key) with _ | v
    · exact hfind
    · rw [catHas, hfind] at h2
      simp at h2
  rw [catLookup, hn]
  rfl

/-- C3: a missing-key diagnostic is produced at most once per key (the
memoizing second call is a silent no-op), is thrown iff `throwOnMissing` is
set and otherwise pushed as a warning while the build continues, names the
key and every locale missing it, and the bare key is the substitution-time
fallback for every missing locale. -/
theorem c3_missing_key_diagnostic (opts : Options) (st : PluginState) (key : List Char)
    (hnew : key ∉ st.validatedLocales) :
    (missingFromLocales opts.locales key = [] →
      validateLocale opts st key =
        .ok { st with validatedLocales := key :: st.validatedLocales }) ∧
    (∀ m, missingFromLocales opts.locales key = m → m ≠ [] →
      (opts.throwOnMissing = true →
        validateLocale opts st key = .error (mkMissingError key m)) ∧
      (opts.throwOnMissing = false →
        validateLocale opts st key =
          .ok { validatedLocales := key :: st.validatedLocales,
                warnings := st.warnings ++ [mkMissingError key m],
                tracked := st.tracked }) ∧
      OccursIn key (mkMissingError key m) ∧
      (∀ l ∈ m, OccursIn l (mkMissingError key m)) ∧
      (∀ l ∈ m, jsOrKey (catLookup (localeData opts.locales l) key) key = key)) ∧
    (∀ st₂ : PluginState, key ∈ st₂.validatedLocales → validateLocale opts st₂ key = .ok st₂) := by
  refine ⟨?_, ?_, ?_⟩
  · intro hempty
    simp [validateLocale, if_neg hnew, hempty]
  · intro m hm hne
    have hmiss : (missingFromLocales opts.locales key).isEmpty = false := by
      rw [hm]
      simpa [List.isEmpty_iff] using hne
    refine ⟨?_, ?_, ?_, ?_, ?_⟩
    · intro hthrow
      simp [validateLocale, if_neg hnew, hmiss, hthrow, hm, hne]
    · intro hnothrow
      simp [validateLocale, if_neg hnew, hmiss, hnothrow, hm, hne]
    · rw [mkMissingError, List.append_assoc, List.append_assoc]
      exact occursIn_append_left _ _ _ (occursIn_self_append _ _)
    · intro l hl
      rw [mkMissingError]
      exact occursIn_append_left _ _ _ (mem_joinComma l m hl)
    · intro l hl
      exact missing_fallback opts.locales key l (hm ▸ hl)
  · intro st₂ hmem
    simp [validateLocale, if_pos hmem]

/-! ## Claim C4: the scanner discards suffix-less and undecodable matches -/

/-- C4: an occurrence of the placeholder prefix whose suffix search fails, or
whose captured span does not decode to a nonempty key, contributes no
`PlaceholderLocation` (and the scanner, being a total function, raises no
error).  The hypothesis covers both discard cases at index `i`: when no suffix
delimiter exists the inner implication is vacuous, and when one exists at `j`
the span must fail to decode to a usable key. -/
theorem c4_scanner_discards (s : List Char) (i : Nat)
    (hbad : ∀ j, indexOfFrom s placeholderSuffixChar (i + placeholderPrefixChars.length) = some j →
      ∀ k, base64Decode ((s.take j).drop (i + placeholderPrefixChars.length)) = some k → k = []) :
    i ∉ (locatePlaceholders s).map PlaceholderLocation.index := by
  intro hmem
  simp only [List.mem_map] at hmem
  obtain ⟨loc, hloc, hidx⟩ := hmem
  rw [locatePlaceholders, List.mem_filterMap] at hloc
  obtain ⟨a, _, hfa⟩ := hloc
  dsimp only at hfa
  split at hfa
  · exact Option.noConfusion hfa
  · rename_i j hj
    split at hfa
    · rename_i k hk
      split at hfa
      · exact Option.noConfusion hfa
      · rename_i hkne
        injection hfa with h1
        rw [← h1] at hidx
        dsimp only at hidx
        subst hidx
        exact hkne (hbad j hj k hk)
    · exact Option.noConfusion hfa

/-! ## Claim C10: the bare-key fallback triggers on falsy values, not only absence -/

theorem dollarSafe_cons2 (c c2 : Char) (rest : List Char) :
    dollarSafe (c :: c2 :: rest) =
      (!(c == '$' && (c2 == '$' || c2 == '&' || c2 == backquoteChar || c2 == quoteChar))
        && dollarSafe (c2 :: rest)) := rfl

theorem expandDollar_cons2 (matched before after : List Char) (c c2 : Char)
    (rest : List Char) :
    expandDollar matched before after (c :: c2 :: rest) =
      if c = '$' then
        if c2 = '$' then '$' :: expandDollar matched before after rest
        else if c2 = '&' then matched ++ expandDollar matched before after rest
        else if c2 = backquoteChar then before ++ expandDollar matched before after rest
        else if c2 = quoteChar then after ++ expandDollar matched before after rest
        else c :: expandDollar matched before after (c2 :: rest)
      else c :: expandDollar matched before after (c2 :: rest) := rfl

/-- A `dollarSafe` replacement string is inserted literally: the JS
GetSubstitution expansion is the identity on it, whatever the match context. -/
theorem expandDollar_of_dollarSafe (matched before after rep : List Char)
    (h : dollarSafe rep = true) :
    expandDollar matched before after rep = rep := by
  induction rep using expandDollar.induct matched before after with
  | case1 => rfl
  | case2 c => rfl
  | case3 rest _ =>
    rw [dollarSafe_cons2, Bool.and_eq_true] at h
    exact absurd h.1 (by decide)
  | case4 rest _ _ =>
    rw [dollarSafe_cons2, Bool.and_eq_true] at h
    exact absurd h.1 (by decide)
  | case5 rest _ _ _ =>
    rw [dollarSafe_cons2, Bool.and_eq_true] at h
    exact absurd h.1 (by decide)
  | case6 rest _ _ _ _ =>
    rw [dollarSafe_cons2, Bool.and_eq_true] at h
    exact absurd h.1 (by decide)
  | case7 c2 rest h1 h2 h3 h4 ih =>
    rw [dollarSafe_cons2, Bool.and_eq_true] at h
    rw [expandDollar_cons2, if_pos rfl, if_neg h1, if_neg h2, if_neg h3, if_neg h4, ih h.2]
  | case8 c c2 rest hc ih =>
    rw [dollarSafe_cons2, Bool.and_eq_true] at h
    rw [expandDollar_cons2, if_neg hc, ih h.2]

/-! ## Claim C6: a single-locale build emits no placeholders and skips the
multi-variant pass -/

/-- C7: with a configured subset of locales that receive source maps, a locale
outside the subset gets a text-only `RawSource`; a locale inside the subset
(or any locale when no subset is configured) whose asset carries a map gets a
`SourceMapSource` holding the regenerated map together with the original map. -/
theorem c7_source_map_subset (locales : Locales) (locale assetName : List Char)
    (phLocs : List PlaceholderLocation) (fnLocs : List Nat)
    (source m : List Char) (subset : List (List Char)) :
    (locale ∉ subset →
      localizeAsset locales locale assetName phLocs fnLocs source
          (mapForLocale (some subset) locale (some m)) =
        .rawSource (applyEditsFrom source 0
          (sortEdits (localizeEdits (localeData locales locale) locale phLocs fnLocs)))) ∧
    (locale ∈ subset →
      localizeAsset locales locale assetName phLocs fnLocs source
          (mapForLocale (some subset) locale (some m)) =
        .sourceMapSource
          (applyEditsFrom source 0
            (sortEdits (localizeEdits (localeData locales locale) locale phLocs fnLocs)))
          assetName
          ⟨assetName, sortEdits (localizeEdits (localeData locales locale) locale phLocs fnLocs)⟩
          source m) ∧
    (localizeAsset locales locale assetName phLocs fnLocs source
        (mapForLocale none locale (some m)) =
      .sourceMapSource
        (applyEditsFrom source 0
          (sortEdits (localizeEdits (localeData locales locale) locale phLocs fnLocs)))
        assetName
        ⟨assetName, sortEdits (localizeEdits (localeData locales locale) locale phLocs fnLocs)⟩
        source m) := by
  refine ⟨?_, ?_, ?_⟩
  · intro hout
    rw [mapForLocale, if_neg hout]
    rfl
  · intro hin
    rw [mapForLocale, if_pos hin]
    rfl
  · rfl

/-! ## Claim C5: variant and deletion counts of the orchestrator -/

def AssetEvent.isEmit : AssetEvent → Bool
  | .emit _ => true
  | .delete _ => false

def AssetEvent.isDelete : AssetEvent → Bool
  | .emit _ => false
  | .delete _ => true

def countEmits (evs : List AssetEvent) : Nat := (evs.filter AssetEvent.isEmit).length

def countDeletes (evs : List AssetEvent) : Nat := (evs.filter AssetEvent.isDelete).length

theorem processAsset_shape (opts : Options) (assetName : List Char) :
    ∃ names : List (List Char),
      processAsset opts assetName =
        names.map AssetEvent.emit
          ++ (if names.isEmpty then [] else [AssetEvent.delete assetName]) ∧
      ((isJsFile assetName = true → names = (localeNamesOf opts.locales).map (newAssetName assetName)) ∧
       (isJsFile assetName = false → isSourceMap assetName = true →
          ∀ smfl, opts.sourceMapsForLocales = some smfl →
            names = smfl.map (newAssetName assetName))) := by
  rw [processAsset]
  by_cases hjs : isJsFile assetName
  · refine ⟨(localeNamesOf opts.locales).map (newAssetName assetName), ?_, ?_, ?_⟩
    · rw [if_pos hjs]
    · intro _; rfl
    · intro hnotjs
      rw [hjs] at hnotjs
      exact absurd hnotjs (by simp)
  · rcases hsm : opts.sourceMapsForLocales with _ | smfl
    · refine ⟨(localeNamesOf opts.locales).map (newAssetName assetName), ?_, ?_, ?_⟩
      · rw [if_neg hjs]
      · intro hjs2; exact absurd hjs2 hjs
      · intro _ _ smfl hsm2
        exact Option.noConfusion hsm2
    · by_cases hmap : isSourceMap assetName
      · refine ⟨smfl.map (newAssetName assetName), ?_, ?_, ?_⟩
        · rw [if_neg hjs]
          dsimp only
          rw [if_pos hmap]
        · intro hjs2; exact absurd hjs2 hjs
        · intro _ _ smfl2 hsm2
          injection hsm2 with h2
          rw [h2]
      · refine ⟨(localeNamesOf opts.locales).map (newAssetName assetName), ?_, ?_, ?_⟩
        · rw [if_neg hjs]
          dsimp only
          rw [if_neg hmap]
        · intro hjs2; exact absurd hjs2 hjs
        · intro _ hmap2
          exact absurd hmap2 hmap

theorem countEmits_trace (names : List (List Char)) (orig : List Char) :
    countEmits (names.map AssetEvent.emit
        ++ (if names.isEmpty then [] else [AssetEvent.delete orig]))
      = names.length := by
  rw [countEmits, List.filter_append, List.filter_map]
  have h1 : List.filter (AssetEvent.isEmit ∘ AssetEvent.emit) names = names := by
    apply List.filter_eq_self.mpr
    intro a _
    rfl
  rw [h1]
  by_cases h : names.isEmpty
  · rw [if_pos h]
    simp
  · rw [if_neg h]
    simp [AssetEvent.isEmit, List.filter]

theorem countDeletes_trace (names : List (List Char)) (orig : List Char) :
    countDeletes (names.map AssetEvent.emit
        ++ (if names.isEmpty then [] else [AssetEvent.delete orig]))
      = (if names.isEmpty then 0 else 1) := by
  rw [countDeletes, List.filter_append, List.filter_map]
  have h1 : List.filter (AssetEvent.isDelete ∘ AssetEvent.emit) names = [] := by
    apply List.filter_eq_nil_iff.mpr
    intro a _
    simp [AssetEvent.isDelete, Function.comp]
  rw [h1]
  by_cases h : names.isEmpty
  · rw [if_pos h, if_pos h]
    simp
  · rw [if_neg h, if_neg h]
    simp [AssetEvent.isDelete, List.filter]

theorem deletes_after_emits (names : List (List Char)) (orig : List Char) :
    (names.map AssetEvent.emit
        ++ (if names.isEmpty then [] else [AssetEvent.delete orig]))
      = (names.map AssetEvent.emit
          ++ (if names.isEmpty then [] else [AssetEvent.delete orig])).filter AssetEvent.isEmit
        ++ (names.map AssetEvent.emit
            ++ (if names.isEmpty then [] else [AssetEvent.delete orig])).filter
              AssetEvent.isDelete := by
  rw [List.filter_append, List.filter_append, List.filter_map, List.filter_map]
  have h1 : List.filter (AssetEvent.isEmit ∘ AssetEvent.emit) names = names :=
    List.filter_eq_self.mpr (fun a _ => rfl)
  have h2 : List.filter (AssetEvent.isDelete ∘ AssetEvent.emit) names = [] :=
    List.filter_eq_nil_iff.mpr (fun a _ => by simp [AssetEvent.isDelete, Function.comp])
  rw [h1, h2]
  by_cases h : names.isEmpty
  · rw [if_pos h]
    simp
  · rw [if_neg h]
    simp [AssetEvent.isEmit, AssetEvent.isDelete, List.filter]

/-- C5: for an asset processed by the orchestrator, a `.js` asset yields
exactly `len(locales)` emitted variants, a `.js.map` asset with a configured
`sourceMapsForLocales` subset yields exactly `len(sourceMapsForLocales)`
variants, exactly one deletion of the original happens iff at least one
variant was emitted, and every deletion comes after every emission in the
event trace. -/
theorem c5_variant_counts (opts : Options) (assetName : List Char) :
    (isJsFile assetName = true →
      countEmits (processAsset opts assetName) = (localeNamesOf opts.locales).length) ∧
    (isJsFile assetName = false → isSourceMap assetName = true →
      ∀ smfl, opts.sourceMapsForLocales = some smfl →
        countEmits (processAsset opts assetName) = smfl.length) ∧
    countDeletes (processAsset opts assetName)
      = (if countEmits (processAsset opts assetName) = 0 then 0 else 1) ∧
    processAsset opts assetName
      = (processAsset opts assetName).filter AssetEvent.isEmit
        ++ (processAsset opts assetName).filter AssetEvent.isDelete := by
  obtain ⟨names, htrace, hjs, hmapcase⟩ := processAsset_shape opts assetName
  rw [htrace]
  refine ⟨?_, ?_, ?_, ?_⟩
  · intro h
    rw [countEmits_trace, hjs h, List.length_map]
  · intro h1 h2 smfl hsm
    rw [countEmits_trace, hmapcase h1 h2 smfl hsm, List.length_map]
  · rw [countEmits_trace, countDeletes_trace]
    by_cases h : names.isEmpty
    · rw [if_pos h, if_pos (by simpa [List.isEmpty_iff, List.length_eq_zero] using h)]
    · rw [if_neg h, if_neg (by simpa [List.isEmpty_iff, List.length_eq_zero] using h)]
  · exact deletes_after_emits names assetName

/-! ## Claim C8: the unused-key report fires before parsing -/

/-- C8 refutation: the push loop for unused-key warnings sits directly in the
`compiler.hooks.make` tap body, which webpack runs when the make phase starts,
before module parsing; so a key that IS referenced by a compiled translation
call (here "greet", referenced once) is still reported as unused by the code,
while the specified behavior reports nothing. -/
theorem c8_unused_warning_fires_for_referenced_key :
    unusedWarningsCode
        ⟨[("en".toList, [("greet".toList, "Hello".toList)]),
          ("fr".toList, [("greet".toList, "Bonjour".toList)])], false, true, none⟩
        ["greet".toList]
      = [mkUnusedWarning "greet".toList] ∧
    unusedWarningsSpec
        ⟨[("en".toList, [("greet".toList, "Hello".toList)]),
          ("fr".toList, [("greet".toList, "Bonjour".toList)])], false, true, none⟩
        ["greet".toList]
      = [] := by
  constructor
  · rfl
  · rfl

/-! ## Prefix decomposition over appends -/

theorem occursAt_mem_findSubstringLocations (pat s : List Char) (i : Nat) (hpat : pat ≠ [])
    (h : OccursAt pat s i) : i ∈ findSubstringLocations s pat := by
  rw [findSubstringLocations, List.mem_filter]
  refine ⟨List.mem_range.mpr ?_, ?_⟩
  · by_contra hge
    push_neg at hge
    rw [OccursAt, List.drop_eq_nil_of_le hge] at h
    exact hpat (List.prefix_nil.mp h)
  · exact List.isPrefixOf_iff_prefix.mpr h

theorem no_occurrence_of_nil_locations (pat s : List Char) (hpat : pat ≠ [])
    (h : findSubstringLocations s pat = []) : ∀ i, ¬ OccursAt pat s i := by
  intro i hi
  have hmem := occursAt_mem_findSubstringLocations pat s i hpat hi
  rw [h] at hmem
  simp at hmem

theorem prefix_append_split {x y z : List Char} (h : x <+: y ++ z) :
    x <+: y ∨ (y <+: x ∧ x.drop y.length <+: z) := by
  obtain ⟨t, ht⟩ := h
  rcases List.append_eq_append_iff.mp ht.symm with ⟨a', ha1, ha2⟩ | ⟨c', hc1, _⟩
  · refine Or.inr ⟨⟨a', ha1.symm⟩, ?_⟩
    rw [ha1, List.drop_left]
    exact ⟨t, ha2.symm⟩
  · exact Or.inl ⟨c', hc1.symm⟩

theorem occursAt_append (pat a b : List Char) (u : Nat) (h : pat <+: (a ++ b).drop u) :
    (pat <+: a.drop u ∧ u + pat.length ≤ a.length)
    ∨ (a.length ≤ u ∧ pat <+: b.drop (u - a.length))
    ∨ (∃ m, 0 < m ∧ m < pat.length ∧ pat.take m <:+ a ∧ pat.drop m <+: b) := by
  by_cases hu : a.length ≤ u
  · refine Or.inr (Or.inl ⟨hu, ?_⟩)
    rwa [List.drop_append_eq_append_drop, List.drop_eq_nil_of_le hu, List.nil_append] at h
  · push_neg at hu
    rw [List.drop_append_eq_append_drop, Nat.sub_eq_zero_of_le (le_of_lt hu),
      List.drop_zero] at h
    rcases prefix_append_split h with h1 | ⟨h2, h3⟩
    · refine Or.inl ⟨h1, ?_⟩
      have hlen := h1.length_le
      rw [List.length_drop] at hlen
      omega
    · rw [List.length_drop] at h3
      have hle := h2.length_le
      rw [List.length_drop] at hle
      by_cases hm : a.length - u = pat.length
      · refine Or.inl ⟨?_, by omega⟩
        have heqlen : (a.drop u).length = pat.length := by
          rw [List.length_drop]; exact hm
        have heq : a.drop u = pat := h2.eq_of_length heqlen
        rw [heq]
      · refine Or.inr (Or.inr ⟨a.length - u, by omega, by omega, ?_, h3⟩)
        have heq : pat.take (a.length - u) = a.drop u := by
          obtain ⟨t, ht⟩ := h2
          rw [← ht, ← List.length_drop u a, List.take_left]
        rw [heq]
        exact List.drop_suffix u a

/-! ## Claim C9: idempotence of the filename template resolver -/

/-- Sufficient condition on a pattern/replacement pair under which a global
replace pass leaves no pattern occurrence behind (hence is idempotent): the
pattern does not occur in the replacement, no proper suffix of the replacement
begins the pattern, and no nonempty proper tail of the pattern overlaps the
replacement at a boundary. -/
def idemSafe (pat rep : List Char) : Bool :=
  (findSubstringLocations rep pat).isEmpty
    && ((List.range rep.length).all fun j => !((rep.drop j).isPrefixOf pat))
    && ((List.range pat.length).all fun k =>
      decide (k = 0) || (!((pat.drop k).isPrefixOf rep) && !(rep.isPrefixOf (pat.drop k))))

theorem idemSafe_not_occurs (pat rep : List Char) (hpat : pat ≠ [])
    (h : idemSafe pat rep = true) : ∀ i, ¬ OccursAt pat rep i := by
  apply no_occurrence_of_nil_locations pat rep hpat
  rw [idemSafe, Bool.and_eq_true, Bool.and_eq_true] at h
  exact List.isEmpty_iff.mp h.1.1

theorem idemSafe_suffix (pat rep : List Char) (h : idemSafe pat rep = true) :
    ∀ j, j < rep.length → ¬ (rep.drop j <+: pat) := by
  intro j hj hpre
  rw [idemSafe, Bool.and_eq_true, Bool.and_eq_true] at h
  have := h.1.2
  rw [List.all_eq_true] at this
  have hj2 := this j (List.mem_range.mpr hj)
  rw [Bool.not_eq_eq_eq_not, Bool.not_true] at hj2
  rw [List.isPrefixOf_iff_prefix.mpr hpre] at hj2
  exact Bool.noConfusion hj2

theorem idemSafe_frag (pat rep : List Char) (h : idemSafe pat rep = true) :
    ∀ k, 0 < k → k < pat.length →
      ¬ (pat.drop k <+: rep) ∧ ¬ (rep <+: pat.drop k) := by
  intro k hk hklt
  rw [idemSafe, Bool.and_eq_true, Bool.and_eq_true] at h
  have := h.2
  rw [List.all_eq_true] at this
  have hk2 := this k (List.mem_range.mpr hklt)
  rw [Bool.or_eq_true, Bool.and_eq_true] at hk2
  rcases hk2 with hk0 | ⟨h1, h2⟩
  · exact absurd (of_decide_eq_true hk0) (by omega)
  · constructor
    · intro hpre
      rw [List.isPrefixOf_iff_prefix.mpr hpre] at h1
      exact Bool.noConfusion h1
    · intro hpre
      rw [List.isPrefixOf_iff_prefix.mpr hpre] at h2
      exact Bool.noConfusion h2

theorem replaceLitF_nil_input (pat rep : List Char) (fuel : Nat) :
    replaceLitF pat rep fuel [] = [] := by
  cases fuel <;> rfl

theorem replaceLitF_cons (pat rep : List Char) (fuel : Nat) (c : Char) (rest : List Char) :
    replaceLitF pat rep (fuel + 1) (c :: rest) =
      if pat ≠ [] ∧ pat.isPrefixOf (c :: rest) then
        rep ++ replaceLitF pat rep fuel ((c :: rest).drop pat.length)
      else c :: replaceLitF pat rep fuel rest := rfl

/-- Transfer of pattern tails: if a nonempty tail of the pattern begins the
output of the replace pass, it already began the input (given `idemSafe`). -/
theorem replaceLitF_drop_prefix (pat rep : List Char) (_hpat : pat ≠ [])
    (hsafe : idemSafe pat rep = true) :
    ∀ fuel s k, s.length ≤ fuel → 0 < k → k ≤ pat.length →
      pat.drop k <+: replaceLitF pat rep fuel s → pat.drop k <+: s := by
  intro fuel
  induction fuel with
  | zero =>
    intro s k hlen _ _ h
    have hs : s = [] := List.length_eq_zero.mp (Nat.le_zero.mp hlen)
    subst hs
    rwa [replaceLitF_nil_input] at h
  | succ fuel ih =>
    intro s k hlen hk hkle h
    cases s with
    | nil => rwa [replaceLitF_nil_input] at h
    | cons c rest =>
      rw [replaceLitF_cons] at h
      by_cases hkeq : k = pat.length
      · subst hkeq
        rw [List.drop_length]
        exact List.nil_prefix
      · have hklt : k < pat.length := lt_of_le_of_ne hkle hkeq
        by_cases hmatch : pat ≠ [] ∧ pat.isPrefixOf (c :: rest)
        · rw [if_pos hmatch] at h
          rcases prefix_append_split h with h1 | ⟨h2, _⟩
          · exact absurd h1 ((idemSafe_frag pat rep hsafe k hk hklt).1)
          · exact absurd h2 ((idemSafe_frag pat rep hsafe k hk hklt).2)
        · rw [if_neg hmatch] at h
          rw [List.drop_eq_getElem_cons hklt] at h ⊢
          rw [List.cons_prefix_cons] at h ⊢
          have hrest : rest.length ≤ fuel := by
            rw [List.length_cons] at hlen
            omega
          exact ⟨h.1, ih rest (k + 1) hrest (by omega) (by omega) h.2⟩

/-- Main lemma for C9: under `idemSafe`, the output of the global replace pass
contains no occurrence of the pattern at all. -/
theorem replaceLitF_tokenFree (pat rep : List Char) (hpat : pat ≠ [])
    (hsafe : idemSafe pat rep = true) :
    ∀ fuel s, s.length ≤ fuel →
      ∀ u, ¬ pat <+: (replaceLitF pat rep fuel s).drop u := by
  intro fuel
  induction fuel with
  | zero =>
    intro s hlen u hocc
    have hs : s = [] := List.length_eq_zero.mp (Nat.le_zero.mp hlen)
    subst hs
    rw [replaceLitF_nil_input, List.drop_nil] at hocc
    exact hpat (List.prefix_nil.mp hocc)
  | succ fuel ih =>
    intro s hlen u hocc
    cases s with
    | nil =>
      rw [replaceLitF_nil_input, List.drop_nil] at hocc
      exact hpat (List.prefix_nil.mp hocc)
    | cons c rest =>
      rw [replaceLitF_cons] at hocc
      by_cases hmatch : pat ≠ [] ∧ pat.isPrefixOf (c :: rest)
      · rw [if_pos hmatch] at hocc
        have hdlen : ((c :: rest).drop pat.length).length ≤ fuel := by
          rw [List.length_drop, List.length_cons]
          rw [List.length_cons] at hlen
          have : 0 < pat.length := List.length_pos.mpr hpat
          omega
        rcases occursAt_append pat rep _ u hocc with ⟨h1, _⟩ | ⟨_, h2⟩ |
          ⟨m, hm0, hmlt, hsuf, _⟩
        · exact idemSafe_not_occurs pat rep hpat hsafe u h1
        · exact ih _ hdlen _ h2
        · obtain ⟨t, ht⟩ := hsuf
          have hj : rep.drop t.length = pat.take m := by rw [← ht, List.drop_left]
          have hjlt : t.length < rep.length := by
            have hlen2 : t.length + (pat.take m).length = rep.length := by
              rw [← List.length_append, ht]
            rw [List.length_take] at hlen2
            omega
          exact idemSafe_suffix pat rep hsafe t.length hjlt
            (hj ▸ List.take_prefix m pat)
      · rw [if_neg hmatch] at hocc
        cases u with
        | zero =>
          rw [List.drop_zero] at hocc
          cases hp : pat with
          | nil => exact hpat hp
          | cons p0 ptl =>
            subst hp
            rw [List.cons_prefix_cons] at hocc
            obtain ⟨hc, htl⟩ := hocc
            have hrest : rest.length ≤ fuel := by
              rw [List.length_cons] at hlen
              omega
            have hdrop1 : (p0 :: ptl).drop 1 = ptl := rfl
            have htl2 : (p0 :: ptl).drop 1 <+: replaceLitF (p0 :: ptl) rep fuel rest := by
              rwa [hdrop1]
            have hin := replaceLitF_drop_prefix (p0 :: ptl) rep hpat hsafe fuel rest 1
              hrest (by omega) (by simp) htl2
            rw [hdrop1] at hin
            exact hmatch ⟨hpat, List.isPrefixOf_iff_prefix.mpr
              (List.cons_prefix_cons.mpr ⟨hc, hin⟩)⟩
        | succ u' =>
          rw [List.drop_succ_cons] at hocc
          have hrest : rest.length ≤ fuel := by
            rw [List.length_cons] at hlen
            omega
          exact ih rest hrest u' hocc

/-- A pass over pattern-free input is the identity. -/
theorem replaceLitF_of_tokenFree (pat rep : List Char) :
    ∀ fuel s, s.length ≤ fuel → (∀ u, ¬ pat <+: s.drop u) →
      replaceLitF pat rep fuel s = s := by
  intro fuel
  induction fuel with
  | zero =>
    intro s hlen _
    have hs : s = [] := List.length_eq_zero.mp (Nat.le_zero.mp hlen)
    subst hs
    rfl
  | succ fuel ih =>
    intro s hlen hfree
    cases s with
    | nil => rfl
    | cons c rest =>
      rw [replaceLitF_cons]
      rw [if_neg]
      · have hrest : rest.length ≤ fuel := by
          rw [List.length_cons] at hlen
          omega
        rw [ih rest hrest (fun u => by
          have := hfree (u + 1)
          rwa [List.drop_succ_cons] at this)]
      · rintro ⟨_, hpre⟩
        exact hfree 0 (by
          rw [List.drop_zero]
          exact List.isPrefixOf_iff_prefix.mp hpre)

theorem replaceAllF_nil_input (orig pat rep : List Char) (fuel : Nat) :
    replaceAllF orig pat rep fuel [] = [] := by
  cases fuel <;> rfl

theorem replaceAllF_cons (orig pat rep : List Char) (fuel : Nat) (c : Char)
    (rest : List Char) :
    replaceAllF orig pat rep (fuel + 1) (c :: rest) =
      if pat ≠ [] ∧ pat.isPrefixOf (c :: rest) then
        expandDollar pat (orig.take (orig.length - (c :: rest).length))
            (orig.drop (orig.length - (c :: rest).length + pat.length)) rep
          ++ replaceAllF orig pat rep fuel ((c :: rest).drop pat.length)
      else c :: replaceAllF orig pat rep fuel rest := rfl

/-- With a `dollarSafe` replacement, the faithful pass and the literal pass
coincide. -/
theorem replaceAllF_eq_lit (orig pat rep : List Char) (hds : dollarSafe rep = true) :
    ∀ fuel s, replaceAllF orig pat rep fuel s = replaceLitF pat rep fuel s := by
  intro fuel
  induction fuel with
  | zero => intro s; cases s <;> rfl
  | succ fuel ih =>
    intro s
    cases s with
    | nil => rfl
    | cons c rest =>
      rw [replaceAllF_cons, replaceLitF_cons]
      by_cases h : pat ≠ [] ∧ pat.isPrefixOf (c :: rest)
      · rw [if_pos h, if_pos h, expandDollar_of_dollarSafe _ _ _ _ hds, ih]
      · rw [if_neg h, if_neg h, ih]

/-- C9 (amended): the filename template resolver is idempotent whenever the
replacement string contains no JS `$`-substitution pattern and — per
`idemSafe`, which the fixed multi-locale placeholder always satisfies —
cannot retain or recreate a `[locale]` occurrence:
`interpolate (interpolate path) = interpolate path`. -/
theorem c9_interpolate_idempotent (replaceWith path : List Char)
    (hds : dollarSafe replaceWith = true)
    (hsafe : idemSafe localeTemplate replaceWith = true) :
    interpolate replaceWith (interpolate replaceWith path) =
      interpolate replaceWith path := by
  have hpat : localeTemplate ≠ [] := by decide
  rw [interpolate, interpolate, replaceAll, replaceAll,
    replaceAllF_eq_lit _ _ _ hds, replaceAllF_eq_lit _ _ _ hds]
  exact replaceLitF_of_tokenFree localeTemplate replaceWith _ _ (le_refl _)
    (replaceLitF_tokenFree localeTemplate replaceWith hpat hsafe _ _ (le_refl _))

/-- C9 counterexample: with a single configured locale literally named
"a[locale]", the resolver is not idempotent — the second pass rewrites the
result of the first again. -/
theorem c9_not_idempotent_counterexample :
    interpolate (replaceWithFor ["a[locale]".toList])
        (interpolate (replaceWithFor ["a[locale]".toList]) "[locale]".toList) ≠
      interpolate (replaceWithFor ["a[locale]".toList]) "[locale]".toList := by
  decide

/-! ## Claim C2: completeness of the rewrite -/

/-- Well-formedness of an edit list over a source: sorted, pairwise disjoint
spans lying inside the source, starting at or after `pos`. -/
def editsWF (s : List Char) : Nat → List Edit → Bool
  | _, [] => true
  | pos, e :: rest =>
    decide (pos ≤ e.start) && decide (e.start ≤ e.stop) && decide (e.stop ≤ s.length)
      && editsWF s e.stop rest

/-- No occurrence of the token `tok` can lie inside the replacement `r` or
straddle one of its ends: `tok` does not occur in `r`, `r` is not a prefix
fragment of `tok`, and no nonempty proper head or tail of `tok` meets `r` at a
boundary. -/
def fragSafe (tok r : List Char) : Bool :=
  (findSubstringLocations r tok).isEmpty
    && !(r.isPrefixOf tok)
    && ((List.range tok.length).all fun m =>
      decide (m = 0)
        || (!((tok.drop m).isPrefixOf r) && !(r.isPrefixOf (tok.drop m))
            && !((tok.take m).isSuffixOf r)))

theorem fragSafe_not_occurs (tok r : List Char) (htok : tok ≠ [])
    (h : fragSafe tok r = true) : ∀ i, ¬ OccursAt tok r i := by
  apply no_occurrence_of_nil_locations tok r htok
  rw [fragSafe, Bool.and_eq_true, Bool.and_eq_true] at h
  exact List.isEmpty_iff.mp h.1.1

theorem fragSafe_not_prefix (tok r : List Char) (h : fragSafe tok r = true) :
    ¬ (r <+: tok) := by
  intro hpre
  rw [fragSafe, Bool.and_eq_true, Bool.and_eq_true] at h
  have h2 := h.1.2
  rw [List.isPrefixOf_iff_prefix.mpr hpre] at h2
  exact Bool.noConfusion h2

theorem fragSafe_frag (tok r : List Char) (h : fragSafe tok r = true) :
    ∀ m, 0 < m → m < tok.length →
      ¬ (tok.drop m <+: r) ∧ ¬ (r <+: tok.drop m) ∧ ¬ (tok.take m <:+ r) := by
  intro m hm hmlt
  rw [fragSafe, Bool.and_eq_true, Bool.and_eq_true] at h
  have h2 := h.2
  rw [List.all_eq_true] at h2
  have hm2 := h2 m (List.mem_range.mpr hmlt)
  rw [Bool.or_eq_true, Bool.and_eq_true, Bool.and_eq_true] at hm2
  rcases hm2 with hm0 | ⟨⟨ha, hb⟩, hc⟩
  · exact absurd (of_decide_eq_true hm0) (by omega)
  · refine ⟨?_, ?_, ?_⟩
    · intro hpre
      rw [List.isPrefixOf_iff_prefix.mpr hpre] at ha
      exact Bool.noConfusion ha
    · intro hpre
      rw [List.isPrefixOf_iff_prefix.mpr hpre] at hb
      exact Bool.noConfusion hb
    · intro hsuf
      rw [List.isSuffixOf_iff_suffix.mpr hsuf] at hc
      exact Bool.noConfusion hc

theorem editsWF_cons (s : List Char) (pos : Nat) (e : Edit) (rest : List Edit)
    (h : editsWF s pos (e :: rest) = true) :
    pos ≤ e.start ∧ e.start ≤ e.stop ∧ e.stop ≤ s.length ∧ editsWF s e.stop rest = true := by
  rw [editsWF, Bool.and_eq_true, Bool.and_eq_true, Bool.and_eq_true] at h
  exact ⟨of_decide_eq_true h.1.1.1, of_decide_eq_true h.1.1.2, of_decide_eq_true h.1.2, h.2⟩

theorem editsWF_start_ge (s : List Char) :
    ∀ (rest : List Edit) (pos : Nat), editsWF s pos rest = true →
      ∀ e ∈ rest, pos ≤ e.start := by
  intro rest
  induction rest with
  | nil => intro pos _ e he; simp at he
  | cons f rest ih =>
    intro pos h e he
    obtain ⟨hpf, hfs, _, hrest⟩ := editsWF_cons s pos f rest h
    rcases List.mem_cons.mp he with rfl | hmem
    · exact hpf
    · exact le_trans (le_trans hpf hfs) (ih f.stop hrest e hmem)

theorem findSubstringLocations_eq_nil_of_free (pat s : List Char)
    (h : ∀ i, ¬ OccursAt pat s i) : findSubstringLocations s pat = [] := by
  rw [findSubstringLocations, List.filter_eq_nil_iff]
  intro i _ hb
  exact h i (List.isPrefixOf_iff_prefix.mp hb)

/-- Core lemma for C2: applying a well-formed edit list whose spans cover
every occurrence of the token `tok` in the source, with token-fragment-safe
replacements, produces a text with no occurrence of `tok` at all. -/
theorem applyEdits_tokenFree (tok : List Char) (htok : tok ≠ []) (s : List Char) :
    ∀ (edits : List Edit) (pos : Nat), editsWF s pos edits = true →
      (∀ q, pos ≤ q → OccursAt tok s q →
        ∃ e ∈ edits, q < e.stop ∧ e.start < q + tok.length) →
      (∀ e ∈ edits, fragSafe tok e.replacement = true) →
      ∀ u, ¬ tok <+: (applyEditsFrom s pos edits).drop u := by
  intro edits
  induction edits with
  | nil =>
    intro pos _ hcov _ u hocc
    have happ : applyEditsFrom s pos [] = s.drop pos := rfl
    rw [happ, List.drop_drop] at hocc
    obtain ⟨e, he, _⟩ := hcov (pos + u) (by omega) hocc
    simp at he
  | cons e rest ih =>
    intro pos hwf hcov hfrag u hocc
    obtain ⟨hpe, hes, hel, hwf'⟩ := editsWF_cons s pos e rest hwf
    have hfe : fragSafe tok e.replacement = true := hfrag e (by simp)
    have happ : applyEditsFrom s pos (e :: rest) =
        ((s.take e.start).drop pos ++ e.replacement) ++ applyEditsFrom s e.stop rest := rfl
    rw [happ, List.append_assoc] at hocc
    have hseglen : ((s.take e.start).drop pos).length = e.start - pos := by
      rw [List.length_drop, List.length_take]
      omega
    rcases occursAt_append tok _ _ u hocc with ⟨h1, h1len⟩ | ⟨hge, h2⟩ |
      ⟨m, hm0, hmlt, hsuf, hpre⟩
    · -- occurrence inside the untouched segment before the edit
      rw [List.drop_drop, List.drop_take] at h1
      have hlift : tok <+: s.drop (pos + u) := h1.trans (List.take_prefix _ _)
      obtain ⟨e', he', hq1, hq2⟩ := hcov (pos + u) (by omega) hlift
      rw [hseglen] at h1len
      rcases List.mem_cons.mp he' with rfl | hmem
      · omega
      · have := editsWF_start_ge s rest e.stop hwf' e' hmem
        omega
    · -- occurrence inside replacement ++ rest-output
      rcases occursAt_append tok _ _ _ h2 with ⟨hr1, _⟩ | ⟨_, hr2⟩ |
        ⟨m, hm0, hmlt, hsufr, _⟩
      · exact fragSafe_not_occurs tok e.replacement htok hfe _ hr1
      · refine ih e.stop hwf' ?_ (fun f hf => hfrag f (by simp [hf])) _ hr2
        intro q hq hqocc
        obtain ⟨e', he', hq1, hq2⟩ := hcov q (le_trans (le_trans hpe hes) hq) hqocc
        rcases List.mem_cons.mp he' with rfl | hmem
        · omega
        · exact ⟨e', hmem, hq1, hq2⟩
      · exact (fragSafe_frag tok e.replacement hfe m hm0 hmlt).2.2 hsufr
    · -- occurrence straddling the segment/edit boundary
      rcases prefix_append_split hpre with hp1 | ⟨hp2, _⟩
      · exact (fragSafe_frag tok e.replacement hfe m hm0 hmlt).1 hp1
      · exact (fragSafe_frag tok e.replacement hfe m hm0 hmlt).2.1 hp2

/-- The edit list that `generateLocalizedAssets` + `localizeAsset` apply to a
`.js` asset's text, in ascending span order. -/
def editsFor (locales : Locales) (locale source : List Char) : List Edit :=
  sortEdits (localizeEdits (localeData locales locale) locale
    (locatePlaceholders source)
    (findSubstringLocations source fileNameTemplatePlaceholder))

theorem localizeAsset_code (locales : Locales) (locale assetName source : List Char)
    (map : Option (List Char)) :
    (localizeAsset locales locale assetName (locatePlaceholders source)
        (findSubstringLocations source fileNameTemplatePlaceholder) source map).code =
      applyEditsFrom source 0 (editsFor locales locale source) := by
  cases map <;> rfl

/-- C2 (amended): for an artifact text in which the edit spans computed by the
scanner are well formed (sorted, disjoint, in bounds), every occurrence of the
StringKey-placeholder prefix and of the filename-template placeholder is
covered by some edit span, and no replacement string can retain or recreate a
fragment of either token, the localized output contains zero occurrences of
the prefix and zero occurrences of the filename-template placeholder. -/
theorem c2_rewrite_complete (locales : Locales) (locale assetName source : List Char)
    (map : Option (List Char))
    (hwf : editsWF source 0 (editsFor locales locale source) = true)
    (hcovP : ∀ q ∈ findSubstringLocations source placeholderPrefixChars,
      ∃ e ∈ editsFor locales locale source,
        q < e.stop ∧ e.start < q + placeholderPrefixChars.length)
    (hcovF : ∀ q ∈ findSubstringLocations source fileNameTemplatePlaceholder,
      ∃ e ∈ editsFor locales locale source,
        q < e.stop ∧ e.start < q + fileNameTemplatePlaceholder.length)
    (hfragP : ∀ e ∈ editsFor locales locale source,
      fragSafe placeholderPrefixChars e.replacement = true)
    (hfragF : ∀ e ∈ editsFor locales locale source,
      fragSafe fileNameTemplatePlaceholder e.replacement = true) :
    findSubstringLocations
        ((localizeAsset locales locale assetName (locatePlaceholders source)
          (findSubstringLocations source fileNameTemplatePlaceholder) source map).code)
        placeholderPrefixChars = [] ∧
    findSubstringLocations
        ((localizeAsset locales locale assetName (locatePlaceholders source)
          (findSubstringLocations source fileNameTemplatePlaceholder) source map).code)
        fileNameTemplatePlaceholder = [] := by
  rw [localizeAsset_code]
  have hP : placeholderPrefixChars ≠ [] := by decide
  have hF : fileNameTemplatePlaceholder ≠ [] := by decide
  constructor
  · apply findSubstringLocations_eq_nil_of_free
    intro i
    exact applyEdits_tokenFree placeholderPrefixChars hP source
      (editsFor locales locale source) 0 hwf
      (fun q _ hq => hcovP q
        (occursAt_mem_findSubstringLocations placeholderPrefixChars source q hP hq))
      hfragP i
  · apply findSubstringLocations_eq_nil_of_free
    intro i
    exact applyEdits_tokenFree fileNameTemplatePlaceholder hF source
      (editsFor locales locale source) 0 hwf
      (fun q _ hq => hcovF q
        (occursAt_mem_findSubstringLocations fileNameTemplatePlaceholder source q hF hq))
      hfragF i

/-- C2 counterexample: an artifact text consisting of the bare placeholder
prefix with no suffix delimiter is scanned to zero locations, so
`localizeAsset` leaves it unchanged and the output still contains the prefix
— the claim is false for arbitrary artifact text. -/
theorem c2_prefix_can_remain_counterexample :
    findSubstringLocations
        ((localizeAsset [("en".toList, [])] "en".toList "a.js".toList
          (locatePlaceholders placeholderPrefixChars)
          (findSubstringLocations placeholderPrefixChars fileNameTemplatePlaceholder)
          placeholderPrefixChars none).code)
        placeholderPrefixChars ≠ [] := by
  decide

/-! ## Witnesses -/

theorem c2_rewrite_complete_witness :
    findSubstringLocations
        ((localizeAsset [("en".toList, [("greet".toList, "Hello".toList)])] "en".toList
          "a.[locale:b64b2e3f].js".toList
          (locatePlaceholders "x=\"b0a92123Z3JlZXQ=|\";p=\"[locale:b64b2e3f]\"".toList)
          (findSubstringLocations "x=\"b0a92123Z3JlZXQ=|\";p=\"[locale:b64b2e3f]\"".toList
            fileNameTemplatePlaceholder)
          "x=\"b0a92123Z3JlZXQ=|\";p=\"[locale:b64b2e3f]\"".toList none).code)
        placeholderPrefixChars = [] ∧
    findSubstringLocations
        ((localizeAsset [("en".toList, [("greet".toList, "Hello".toList)])] "en".toList
          "a.[locale:b64b2e3f].js".toList
          (locatePlaceholders "x=\"b0a92123Z3JlZXQ=|\";p=\"[locale:b64b2e3f]\"".toList)
          (findSubstringLocations "x=\"b0a92123Z3JlZXQ=|\";p=\"[locale:b64b2e3f]\"".toList
            fileNameTemplatePlaceholder)
          "x=\"b0a92123Z3JlZXQ=|\";p=\"[locale:b64b2e3f]\"".toList none).code)
        fileNameTemplatePlaceholder = [] :=
  c2_rewrite_complete [("en".toList, [("greet".toList, "Hello".toList)])] "en".toList
    "a.[locale:b64b2e3f].js".toList "x=\"b0a92123Z3JlZXQ=|\";p=\"[locale:b64b2e3f]\"".toList
    none (by decide) (by decide) (by decide) (by decide) (by decide)

theorem c3_missing_key_diagnostic_witness :
    validateLocale ⟨[("en".toList, [("greet".toList, "Hi".toList)])], true, false, none⟩
        ⟨[], [], []⟩ "farewell".toList
      = .error (mkMissingError "farewell".toList ["en".toList]) :=
  ((c3_missing_key_diagnostic ⟨[("en".toList, [("greet".toList, "Hi".toList)])], true, false,
      none⟩ ⟨[], [], []⟩ "farewell".toList (by decide)).2.1 ["en".toList] (by decide)
    (by decide)).1 rfl

theorem c4_scanner_discards_witness :
    (0 : Nat) ∉ (locatePlaceholders "b0a92123!|x".toList).map PlaceholderLocation.index := by
  apply c4_scanner_discards
  intro j hj k hk
  have h9 : indexOfFrom "b0a92123!|x".toList placeholderSuffixChar
      (0 + placeholderPrefixChars.length) = some 9 := by decide
  rw [h9] at hj
  injection hj with hj9
  subst hj9
  have hnone : base64Decode ((("b0a92123!|x".toList).take 9).drop
      (0 + placeholderPrefixChars.length)) = none := by decide
  rw [hnone] at hk
  exact Option.noConfusion hk

theorem c5_variant_counts_witness :
    countEmits (processAsset ⟨[("en".toList, []), ("fr".toList, [])], false, false, none⟩
        "app.[locale:b64b2e3f].js".toList)
      = (localeNamesOf [("en".toList, []), ("fr".toList, [])]).length :=
  (c5_variant_counts ⟨[("en".toList, []), ("fr".toList, [])], false, false, none⟩
    "app.[locale:b64b2e3f].js".toList).1 (by decide)

theorem c7_source_map_subset_witness :
    localizeAsset [("en".toList, []), ("fr".toList, [])] "fr".toList "a.js".toList [] []
        "code".toList (mapForLocale (some ["en".toList]) "fr".toList (some "MAP".toList)) =
      .rawSource (applyEditsFrom "code".toList 0
        (sortEdits (localizeEdits (localeData [("en".toList, []), ("fr".toList, [])] "fr".toList)
          "fr".toList [] []))) :=
  (c7_source_map_subset [("en".toList, []), ("fr".toList, [])] "fr".toList "a.js".toList [] []
    "code".toList "MAP".toList ["en".toList]).1 (by decide)

theorem c9_interpolate_idempotent_witness :
    interpolate fileNameTemplatePlaceholder
        (interpolate fileNameTemplatePlaceholder "assets/[locale]/app.[locale].js".toList)
      = interpolate fileNameTemplatePlaceholder "assets/[locale]/app.[locale].js".toList :=
  c9_interpolate_idempotent fileNameTemplatePlaceholder
    "assets/[locale]/app.[locale].js".toList (by decide) (by decide)

end LocalizeAssets
